import Mathlib

/-!
A verification development for the vector-path stroking engine of the `ori`
repository (`crates/ori-core/src/canvas/stroke.rs`).

The stroking code itself (`stroke.rs`) is translated definition by definition
below.  The geometric primitives (`Point`, `Vector`) and the path container
(`Curve`) live in modules of the repository that are not part of the provided
sources; those are modelled from the specification (each such definition says
so in its doc comment).  Scalars are modelled by the real numbers: the claims
under study speak about exact geometry "within floating tolerance", which is
the idealised real-arithmetic semantics of the `f32` code.  Note that in Lean
division by zero yields `0`, so `normalize` of the zero vector is the zero
vector, matching the specification's "undefined/zero for a zero-length
vector".
-/

namespace Ori

noncomputable section

/-- Modelled from the spec (§3): a 2D coordinate with real components,
standing for the repository's `ori_core::layout::Point` (not under `src/`). -/
structure Point where
  x : ℝ
  y : ℝ

/-- Modelled from the spec (§3): a 2D direction with magnitude, standing for
the repository's `ori_core::layout::Vector` (not under `src/`). -/
structure Vector where
  x : ℝ
  y : ℝ

instance : Add Vector := ⟨fun a b => ⟨a.x + b.x, a.y + b.y⟩⟩
instance : Neg Vector := ⟨fun a => ⟨-a.x, -a.y⟩⟩
instance : HMul Vector ℝ Vector := ⟨fun v s => ⟨v.x * s, v.y * s⟩⟩
instance : HDiv Vector ℝ Vector := ⟨fun v s => ⟨v.x / s, v.y / s⟩⟩
instance : HAdd Point Vector Point := ⟨fun p v => ⟨p.x + v.x, p.y + v.y⟩⟩
instance : HSub Point Vector Point := ⟨fun p v => ⟨p.x - v.x, p.y - v.y⟩⟩
instance : HSub Point Point Vector := ⟨fun p q => ⟨p.x - q.x, p.y - q.y⟩⟩

/-- Modelled from the spec (§3): the dot product of the primitives. -/
def Vector.dot (a b : Vector) : ℝ := a.x * b.x + a.y * b.y

/-- Modelled from the spec (§3): the 2D scalar cross product. -/
def Vector.cross (a b : Vector) : ℝ := a.x * b.y - a.y * b.x

/-- Modelled from the spec (§2, §3): the "perpendicular" (rotate-90°)
operation `hat`, used to turn a tangent into a normal. -/
def Vector.hat (a : Vector) : Vector := ⟨-a.y, a.x⟩

/-- Modelled from the spec (§3): the Euclidean length of a vector. -/
def Vector.length (a : Vector) : ℝ := Real.sqrt (a.x ^ 2 + a.y ^ 2)

/-- Modelled from the spec (§3): `normalize` scales a vector to unit length;
for the zero vector this is "undefined/zero" — division by the zero length
yields the zero vector here. -/
def Vector.normalize (a : Vector) : Vector := a / a.length

/-- Modelled from the spec (§2): linear interpolation on points,
`p.lerp(q, t) = p + (q - p) * t`. -/
def Point.lerp (p q : Point) (t : ℝ) : Point :=
  ⟨p.x + (q.x - p.x) * t, p.y + (q.y - p.y) * t⟩

/-- `Point::ZERO`, the implicit initial current point of the stroker. -/
def Point.ZERO : Point := ⟨0, 0⟩

/-- The segment variants of the path model (spec §3).  The `conic` variant is
modelled from the spec (§6 lists a `conic_to(control, end, weight)`
constructor and the glossary defines a conic as a rational quadratic): the
round join emits conic segments through it. -/
inductive CurveSegment where
  | move (p : Point)
  | line (p : Point)
  | quad (p1 p2 : Point)
  | conic (p1 p2 : Point) (w : ℝ)
  | cubic (p1 p2 p3 : Point)
  | close

/-- Modelled from the spec (§3): the path container `Curve`, an ordered
sequence of segments (the repository's `canvas::Curve` is not under `src/`). -/
structure Curve where
  segments : List CurveSegment

/-- `Curve::new()`. -/
def Curve.new : Curve := ⟨[]⟩

/-- Modelled from the spec (§6): `move_to` appends a `Move` segment. -/
def Curve.move_to (c : Curve) (p : Point) : Curve := ⟨c.segments ++ [.move p]⟩

/-- Modelled from the spec (§6): `line_to` appends a `Line` segment. -/
def Curve.line_to (c : Curve) (p : Point) : Curve := ⟨c.segments ++ [.line p]⟩

/-- Modelled from the spec (§6): `quad_to` appends a `Quad` segment. -/
def Curve.quad_to (c : Curve) (p1 p2 : Point) : Curve := ⟨c.segments ++ [.quad p1 p2]⟩

/-- Modelled from the spec (§6): `conic_to(control, end, weight)` appends a
conic (rational quadratic) segment. -/
def Curve.conic_to (c : Curve) (p1 p2 : Point) (w : ℝ) : Curve :=
  ⟨c.segments ++ [.conic p1 p2 w]⟩

/-- Modelled from the spec (§6): `cubic_to` appends a `Cubic` segment. -/
def Curve.cubic_to (c : Curve) (p1 p2 p3 : Point) : Curve :=
  ⟨c.segments ++ [.cubic p1 p2 p3]⟩

/-- Modelled from the spec (§6): `close` appends a `Close` segment. -/
def Curve.close (c : Curve) : Curve := ⟨c.segments ++ [.close]⟩

/-- Modelled from the spec (§4.2): the reversed-geometry segment list of a
path.  Traversing the segments in order while tracking the current point
(starting from `Point::ZERO`, the implicit initial current point), each
drawable segment is re-emitted, in reverse traversal order, retargeted at its
own start point with control points reversed; `Move` segments are dropped.
The accumulator `acc` holds the already-reversed tail, so the fold naturally
produces the segments last-first. -/
def reverse_segments : List CurveSegment → Point → List CurveSegment → List CurveSegment
  | [], _, acc => acc
  | .move p :: rest, _, acc => reverse_segments rest p acc
  | .line p :: rest, cur, acc => reverse_segments rest p (.line cur :: acc)
  | .quad p1 p2 :: rest, cur, acc => reverse_segments rest p2 (.quad p1 cur :: acc)
  | .conic p1 p2 w :: rest, cur, acc => reverse_segments rest p2 (.conic p1 cur w :: acc)
  | .cubic p1 p2 p3 :: rest, cur, acc => reverse_segments rest p3 (.cubic p2 p1 cur :: acc)
  | .close :: rest, cur, acc => reverse_segments rest cur acc

/-- Modelled from the spec (§4.2): `append_reverse(other)` appends `other`'s
segments in reverse traversal order so that the combined path traces the
opposite offset side backwards (used once per subpath to merge the two offset
sides). -/
def Curve.append_reverse (c other : Curve) : Curve :=
  ⟨c.segments ++ reverse_segments other.segments Point.ZERO []⟩

/-- Ways to draw the end of a line (`LineCap`). -/
inductive LineCap where
  | butt
  | round
  | square
deriving DecidableEq

/-- Ways to join two lines (`LineJoin`). -/
inductive LineJoin where
  | miter
  | round
  | bevel
deriving DecidableEq

/-- Properties of a stroke (`Stroke`), with the two `f32` fields modelled as
reals. -/
structure Stroke where
  width : ℝ
  miter : ℝ
  cap : LineCap
  join : LineJoin

/-- `Curve::MAX_ERROR` (stroke.rs line 82). -/
def MAX_ERROR : ℝ := 1.0

/-- `Curve::MAX_DEPTH` (stroke.rs line 83). -/
def MAX_DEPTH : ℕ := 6

/-- `line_normal` (stroke.rs lines 396-398): the normalized perpendicular of
the segment direction.  For a zero-length segment this normalizes the zero
vector. -/
def line_normal (p0 p1 : Point) : Vector := ((p1 - p0 : Vector).hat).normalize

/-- `quad_bezier` (stroke.rs lines 400-405). -/
def quad_bezier (p0 p1 p2 : Point) (t : ℝ) : Point :=
  (p0.lerp p1 t).lerp (p1.lerp p2 t) t

/-- `quad_bezier_tangent` (stroke.rs lines 407-412). -/
def quad_bezier_tangent (p0 p1 p2 : Point) (t : ℝ) : Vector :=
  (p1.lerp p2 t) - (p0.lerp p1 t)

/-- `quad_bezier_normal` (stroke.rs lines 414-416). -/
def quad_bezier_normal (p0 p1 p2 : Point) (t : ℝ) : Vector :=
  ((quad_bezier_tangent p0 p1 p2 t).hat).normalize

/-- `cubic_bezier` (stroke.rs lines 418-427). -/
def cubic_bezier (p0 p1 p2 p3 : Point) (t : ℝ) : Point :=
  ((p0.lerp p1 t).lerp (p1.lerp p2 t) t).lerp ((p1.lerp p2 t).lerp (p2.lerp p3 t) t) t

/-- `cubic_bezier_tangent` (stroke.rs lines 429-438). -/
def cubic_bezier_tangent (p0 p1 p2 p3 : Point) (t : ℝ) : Vector :=
  ((p1.lerp p2 t).lerp (p2.lerp p3 t) t) - ((p0.lerp p1 t).lerp (p1.lerp p2 t) t)

/-- `cubic_bezier_normal` (stroke.rs lines 440-442). -/
def cubic_bezier_normal (p0 p1 p2 p3 : Point) (t : ℝ) : Vector :=
  ((cubic_bezier_tangent p0 p1 p2 p3 t).hat).normalize

/-- `segment_normal` (stroke.rs lines 444-452). -/
def segment_normal (segment : CurveSegment) (p0 : Point) (t : ℝ) : Option Vector :=
  match segment with
  | .move _ => none
  | .line p => some (line_normal p0 p)
  | .quad p1 p2 => some (quad_bezier_normal p0 p1 p2 t)
  | .conic _ _ _ => none
  | .cubic p1 p2 p3 => some (cubic_bezier_normal p0 p1 p2 p3 t)
  | .close => none

/-- `Curve::offset_line` (stroke.rs lines 85-91). -/
def Curve.offset_line (c : Curve) (p0 p1 : Point) (offset : ℝ) : Curve :=
  c.line_to (p1 + line_normal p0 p1 * offset)

/-- `Curve::divide_quad_bezier` (stroke.rs lines 124-131). -/
def divide_quad_bezier (p0 p1 p2 : Point) (t : ℝ) : Point × Point × Point :=
  (p0.lerp p1 t, (p0.lerp p1 t).lerp (p1.lerp p2 t) t, p1.lerp p2 t)

/-- The offset control points `op0, op1, op2` computed as locals of
`Curve::offset_quad_bezier` (stroke.rs lines 94-100). -/
def quad_offset_points (p0 p1 p2 : Point) (offset : ℝ) : Point × Point × Point :=
  (p0 + quad_bezier_normal p0 p1 p2 0 * offset,
   p1 + quad_bezier_normal p0 p1 p2 0.5 * offset,
   p2 + quad_bezier_normal p0 p1 p2 1 * offset)

/-- The local `error` of `Curve::offset_quad_bezier` (stroke.rs lines
102-105): the distance between the candidate evaluated at `t = 0.5` and the
true offset point there. -/
def quad_offset_error (p0 p1 p2 : Point) (offset : ℝ) : ℝ :=
  (quad_bezier (quad_offset_points p0 p1 p2 offset).1
      (quad_offset_points p0 p1 p2 offset).2.1
      (quad_offset_points p0 p1 p2 offset).2.2 0.5 -
    (quad_bezier p0 p1 p2 0.5 + quad_bezier_normal p0 p1 p2 0 * offset) :
      Vector).length

/-- `Curve::offset_quad_bezier` (stroke.rs lines 93-116): accept the
candidate when the error is below `MAX_ERROR` or the depth reached
`MAX_DEPTH`, otherwise split at `t = 0.5` and recurse on both halves. -/
def Curve.offset_quad_bezier (c : Curve) (p0 p1 p2 : Point) (offset : ℝ)
    (depth : ℕ) : Curve :=
  if h : quad_offset_error p0 p1 p2 offset < MAX_ERROR ∨ depth ≥ MAX_DEPTH then
    c.quad_to (quad_offset_points p0 p1 p2 offset).2.1
      (quad_offset_points p0 p1 p2 offset).2.2
  else
    Curve.offset_quad_bezier
      (Curve.offset_quad_bezier c p0 (divide_quad_bezier p0 p1 p2 0.5).1
        (divide_quad_bezier p0 p1 p2 0.5).2.1 offset (depth + 1))
      (divide_quad_bezier p0 p1 p2 0.5).2.1 (divide_quad_bezier p0 p1 p2 0.5).2.2
      p2 offset (depth + 1)
termination_by MAX_DEPTH - depth
decreasing_by
  all_goals (push_neg at h; simp only [MAX_DEPTH] at h ⊢; omega)

/-- `Curve::divide_cubic_bezier` (stroke.rs lines 176-187), returning
`(p01, p012, center, p123, p23)`. -/
def divide_cubic_bezier (p0 p1 p2 p3 : Point) (t : ℝ) :
    Point × Point × Point × Point × Point :=
  (p0.lerp p1 t,
   (p0.lerp p1 t).lerp (p1.lerp p2 t) t,
   ((p0.lerp p1 t).lerp (p1.lerp p2 t) t).lerp ((p1.lerp p2 t).lerp (p2.lerp p3 t) t) t,
   (p1.lerp p2 t).lerp (p2.lerp p3 t) t,
   p2.lerp p3 t)

/-- The offset control points `op0..op3` computed as locals of
`Curve::offset_cubic_bezier` (stroke.rs lines 142-150). -/
def cubic_offset_points (p0 p1 p2 p3 : Point) (offset : ℝ) :
    Point × Point × Point × Point :=
  (p0 + cubic_bezier_normal p0 p1 p2 p3 0 * offset,
   p1 + cubic_bezier_normal p0 p1 p2 p3 (1 / 3) * offset,
   p2 + cubic_bezier_normal p0 p1 p2 p3 (2 / 3) * offset,
   p3 + cubic_bezier_normal p0 p1 p2 p3 1 * offset)

/-- The local `error` of `Curve::offset_cubic_bezier` (stroke.rs lines
152-155): the distance between the candidate evaluated at `t = 1/3` and the
true offset point there. -/
def cubic_offset_error (p0 p1 p2 p3 : Point) (offset : ℝ) : ℝ :=
  (cubic_bezier (cubic_offset_points p0 p1 p2 p3 offset).1
      (cubic_offset_points p0 p1 p2 p3 offset).2.1
      (cubic_offset_points p0 p1 p2 p3 offset).2.2.1
      (cubic_offset_points p0 p1 p2 p3 offset).2.2.2 (1 / 3) -
    (cubic_bezier p0 p1 p2 p3 (1 / 3) + cubic_bezier_normal p0 p1 p2 p3 0 * offset) :
      Vector).length

/-- `Curve::offset_cubic_bezier` (stroke.rs lines 133-166): accept the
candidate when the error is below `offset * MAX_ERROR` or the depth reached
`MAX_DEPTH`, otherwise split at `t = 1/3` and recurse on both halves. -/
def Curve.offset_cubic_bezier (c : Curve) (p0 p1 p2 p3 : Point) (offset : ℝ)
    (depth : ℕ) : Curve :=
  if h : cubic_offset_error p0 p1 p2 p3 offset < offset * MAX_ERROR ∨ depth ≥ MAX_DEPTH then
    c.cubic_to (cubic_offset_points p0 p1 p2 p3 offset).2.1
      (cubic_offset_points p0 p1 p2 p3 offset).2.2.1
      (cubic_offset_points p0 p1 p2 p3 offset).2.2.2
  else
    Curve.offset_cubic_bezier
      (Curve.offset_cubic_bezier c p0 (divide_cubic_bezier p0 p1 p2 p3 (1 / 3)).1
        (divide_cubic_bezier p0 p1 p2 p3 (1 / 3)).2.1
        (divide_cubic_bezier p0 p1 p2 p3 (1 / 3)).2.2.1 offset (depth + 1))
      (divide_cubic_bezier p0 p1 p2 p3 (1 / 3)).2.2.1
      (divide_cubic_bezier p0 p1 p2 p3 (1 / 3)).2.2.2.1
      (divide_cubic_bezier p0 p1 p2 p3 (1 / 3)).2.2.2.2 p3 offset (depth + 1)
termination_by MAX_DEPTH - depth
decreasing_by
  all_goals (push_neg at h; simp only [MAX_DEPTH] at h ⊢; omega)

/-- `Curve::stroke_line_cap` (stroke.rs lines 189-219). -/
def Curve.stroke_line_cap (c : Curve) (p : Point) (n t : Vector) (stroke : Stroke) :
    Curve :=
  let r := stroke.width / 2
  match stroke.cap with
  | .butt => c.line_to (p + n * r)
  | .round =>
    let p0 := p - n * r
    let p1 := p + n * r
    let h := t * r * (0.55 : ℝ)
    let na := n * r * (0.55 : ℝ)
    let cc := p + t * r
    (c.cubic_to (p0 + h) (cc - na) cc).cubic_to (cc + na) (p1 + h) p1
  | .square =>
    let p0 := p - n * r
    let p1 := p + n * r
    let h := t * r
    ((c.line_to (p0 + h)).line_to (p1 + h)).line_to p1

/-- `Curve::stroke_bevel` (stroke.rs lines 281-285). -/
def Curve.stroke_bevel (c : Curve) (pivot : Point) (n1 : Vector) (r : ℝ) : Curve :=
  c.line_to (pivot + n1 * r)

/-- The local `amount` of `Curve::stroke_miter` (stroke.rs lines 243-246):
the dot product of the normalized bisector with the outgoing normal. -/
def miter_amount (n0 n1 : Vector) : ℝ := ((n0 + n1).normalize).dot n1

/-- `Curve::stroke_miter` (stroke.rs lines 242-261): fall back to the bevel
join when the miter ratio `1/amount` reaches the limit, otherwise emit the
miter apex and then the bevel point. -/
def Curve.stroke_miter (c : Curve) (pivot : Point) (n0 n1 : Vector) (r limit : ℝ) :
    Curve :=
  if 1 / miter_amount n0 n1 ≥ limit then
    c.stroke_bevel pivot n1 r
  else
    (c.line_to (pivot + (n0 + n1).normalize * r / miter_amount n0 n1)).line_to
      (pivot + n1 * r)

/-- The local `nmid` of `Curve::stroke_round` (stroke.rs line 266). -/
def round_nmid (n0 n1 : Vector) : Vector := (n0 + n1).normalize

/-- The local `cos_theta_over_2` of `Curve::stroke_round` (stroke.rs lines
270-271). -/
def round_w (n0 n1 : Vector) : ℝ :=
  Real.sqrt ((1 + n0.dot (round_nmid n0 n1)) / 2)

/-- The local `mid` of `Curve::stroke_round` (stroke.rs line 268). -/
def round_mid (pivot : Point) (n0 n1 : Vector) (r : ℝ) : Point :=
  pivot + round_nmid n0 n1 * r

/-- The local `c0` of `Curve::stroke_round` (stroke.rs line 274). -/
def round_c0 (pivot : Point) (n0 n1 : Vector) (r : ℝ) : Point :=
  pivot + (n0 + round_nmid n0 n1).normalize * r * (1 / round_w n0 n1)

/-- The local `c1` of `Curve::stroke_round` (stroke.rs line 275). -/
def round_c1 (pivot : Point) (n0 n1 : Vector) (r : ℝ) : Point :=
  pivot + (n1 + round_nmid n0 n1).normalize * r * (1 / round_w n0 n1)

/-- `Curve::stroke_round` (stroke.rs lines 263-279): two conic segments with
weight `cos_theta_over_2`. -/
def Curve.stroke_round (c : Curve) (pivot : Point) (n0 n1 : Vector) (r : ℝ) : Curve :=
  (c.conic_to (round_c0 pivot n0 n1 r) (round_mid pivot n0 n1 r) (round_w n0 n1)).conic_to
    (round_c1 pivot n0 n1 r) (pivot + n1 * r) (round_w n0 n1)

/-- `Curve::stroke_join` (stroke.rs lines 221-240): a single line on the
concave side, otherwise dispatch on the join style. -/
def Curve.stroke_join (c : Curve) (pivot : Point) (n0 n1 : Vector) (r : ℝ)
    (join : LineJoin) (miter_limit : ℝ) : Curve :=
  if n0.cross n1 * r > 0 then
    c.line_to (pivot + n1 * r)
  else
    match join with
    | .miter => c.stroke_miter pivot n0 n1 r miter_limit
    | .round => c.stroke_round pivot n0 n1 r
    | .bevel => c.stroke_bevel pivot n1 r

/-- Whether the peeked next segment ends the current subpath
(stroke.rs line 382: `matches!(segments.peek(), None | Some(Move(_)))`). -/
def at_subpath_end : List CurveSegment → Bool
  | [] => true
  | .move _ :: _ => true
  | _ => false

/-- The cap block of `Curve::stroke_impl` (stroke.rs lines 382-391), run
after every segment with the already-updated current point `p0`: when the
subpath ends here and the segment has a normal, emit the end cap, append the
reversed outside path, emit the start cap at the `first` anchor (defaulting
to `(p0, n)`), and close. -/
def cap_block (stroke : Stroke) (seg : CurveSegment) (rest : List CurveSegment)
    (p0 : Point) (first : Option (Point × Vector)) (self outside : Curve) : Curve :=
  if at_subpath_end rest then
    match segment_normal seg p0 1 with
    | some n =>
      let self1 := (self.stroke_line_cap p0 (-n) (-(n.hat)) stroke).append_reverse outside
      let pf := (first.getD (p0, n)).1
      let nf := (first.getD (p0, n)).2
      (self1.stroke_line_cap pf nf nf.hat stroke).close
    | none => self
  else self

/-- The loop of `Curve::stroke_impl` (stroke.rs lines 298-392), with the
mutable walk state (`p0`, `n0`, `first`, the output `self` and the `outside`
accumulator) threaded explicitly.  The `Close` branch evaluates
`n0.unwrap()` eagerly — as Rust's `Option::unwrap_or` evaluates its argument
— so a `Close` with no previous normal fails; failure is modelled by `none`.
A conic input segment is outside the reference `match` (whose iterator yields
`Move`/`Line`/`Quad`/`Cubic`/`Close` only) and is also mapped to `none`. -/
def Curve.stroke_loop (stroke : Stroke) (r : ℝ) :
    List CurveSegment → Point → Option Vector → Option (Point × Vector) →
      Curve → Curve → Option Curve
  | [], _, _, _, self, _ => some self
  | seg :: rest, p0, n0, first, self, outside =>
    match seg with
    | .move p1 =>
      let self1 := cap_block stroke seg rest p1 none self outside
      Curve.stroke_loop stroke r rest p1 none none self1 outside
    | .line p1 =>
      let n1 := line_normal p0 p1
      match n0 with
      | some n0v =>
        let self1 := self.stroke_join p0 n0v n1 r stroke.join stroke.miter
        let outside1 := outside.stroke_join p0 n0v n1 (-r) stroke.join stroke.miter
        let self2 := self1.offset_line p0 p1 r
        let outside2 := outside1.offset_line p0 p1 (-r)
        let self3 := cap_block stroke seg rest p1 first self2 outside2
        Curve.stroke_loop stroke r rest p1 (some n1) first self3 outside2
      | none =>
        let self1 := self.move_to (p0 + n1 * r)
        let outside1 := outside.move_to (p0 - n1 * r)
        let self2 := self1.offset_line p0 p1 r
        let outside2 := outside1.offset_line p0 p1 (-r)
        let self3 := cap_block stroke seg rest p1 (some (p0, n1)) self2 outside2
        Curve.stroke_loop stroke r rest p1 (some n1) (some (p0, n1)) self3 outside2
    | .quad p1 p2 =>
      let n1 := quad_bezier_normal p0 p1 p2 0
      match n0 with
      | some n0v =>
        let self1 := self.stroke_join p0 n0v n1 r stroke.join stroke.miter
        let outside1 := outside.stroke_join p0 n0v n1 (-r) stroke.join stroke.miter
        let self2 := self1.offset_quad_bezier p0 p1 p2 r 0
        let outside2 := outside1.offset_quad_bezier p0 p1 p2 (-r) 0
        let self3 := cap_block stroke seg rest p2 first self2 outside2
        Curve.stroke_loop stroke r rest p2 (some (quad_bezier_normal p0 p1 p2 1))
          first self3 outside2
      | none =>
        let self1 := self.move_to (p0 + n1 * r)
        let outside1 := outside.move_to (p0 - n1 * r)
        let self2 := self1.offset_quad_bezier p0 p1 p2 r 0
        let outside2 := outside1.offset_quad_bezier p0 p1 p2 (-r) 0
        let self3 := cap_block stroke seg rest p2 (some (p0, n1)) self2 outside2
        Curve.stroke_loop stroke r rest p2 (some (quad_bezier_normal p0 p1 p2 1))
          (some (p0, n1)) self3 outside2
    | .cubic p1 p2 p3 =>
      let n1 := cubic_bezier_normal p0 p1 p2 p3 0
      match n0 with
      | some n0v =>
        let self1 := self.stroke_join p0 n0v n1 r stroke.join stroke.miter
        let outside1 := outside.stroke_join p0 n0v n1 (-r) stroke.join stroke.miter
        let self2 := self1.offset_cubic_bezier p0 p1 p2 p3 r 0
        let outside2 := outside1.offset_cubic_bezier p0 p1 p2 p3 (-r) 0
        let self3 := cap_block stroke seg rest p3 first self2 outside2
        Curve.stroke_loop stroke r rest p3 (some (cubic_bezier_normal p0 p1 p2 p3 1))
          first self3 outside2
      | none =>
        let self1 := self.move_to (p0 + n1 * r)
        let outside1 := outside.move_to (p0 - n1 * r)
        let self2 := self1.offset_cubic_bezier p0 p1 p2 p3 r 0
        let outside2 := outside1.offset_cubic_bezier p0 p1 p2 p3 (-r) 0
        let self3 := cap_block stroke seg rest p3 (some (p0, n1)) self2 outside2
        Curve.stroke_loop stroke r rest p3 (some (cubic_bezier_normal p0 p1 p2 p3 1))
          (some (p0, n1)) self3 outside2
    | .conic _ _ _ => none
    | .close =>
      match n0 with
      | none => none
      | some n0v =>
        let pf := (first.getD (p0, n0v)).1
        let nf := (first.getD (p0, n0v)).2
        let self1 := self.close
        let self2 := ((self1.move_to (pf - nf * r)).append_reverse outside).close
        let self3 := cap_block stroke seg rest p0 first self2 outside
        Curve.stroke_loop stroke r rest p0 n0 first self3 outside

/-- `Curve::stroke_impl` (stroke.rs lines 287-393): walk the input curve with
initial current point `Point::ZERO`, no previous normal, no first anchor, a
fresh `outside` accumulator, and half-width `r = stroke.width / 2`. -/
def Curve.stroke_impl (self : Curve) (curve : Curve) (stroke : Stroke) : Option Curve :=
  Curve.stroke_loop stroke (stroke.width / 2) curve.segments Point.ZERO none none
    self Curve.new

/-- Modelled from the spec (glossary): the point at parameter `t ∈ [0,1]` of
a rational quadratic (conic) with start `a`, control `c`, end `b` and weight
`w`, in the standard homogeneous form
`((1-t)² a + 2t(1-t) w c + t² b) / ((1-t)² + 2t(1-t) w + t²)`.  This is the
curve a `conic_to(control, end, weight)` segment denotes, starting from the
current point. -/
def conic_point (a c b : Point) (w t : ℝ) : Point :=
  ⟨((1 - t) ^ 2 * a.x + 2 * t * (1 - t) * w * c.x + t ^ 2 * b.x) /
      ((1 - t) ^ 2 + 2 * t * (1 - t) * w + t ^ 2),
   ((1 - t) ^ 2 * a.y + 2 * t * (1 - t) * w * c.y + t ^ 2 * b.y) /
      ((1 - t) ^ 2 + 2 * t * (1 - t) * w + t ^ 2)⟩

/-- Modelled from the spec (§3): an `f32` value abstracted by its IEEE-754
bit pattern, which is exactly what `f32::to_bits` observes (so `-0.0` and
`0.0`, and distinct NaN payloads, are distinct). -/
structure F32Bits where
  to_bits : ℕ
deriving DecidableEq

/-- The discriminant word the derived `Hash` of `LineCap` feeds the hasher. -/
def LineCap.hash_code : LineCap → ℕ
  | .butt => 0
  | .round => 1
  | .square => 2

/-- The discriminant word the derived `Hash` of `LineJoin` feeds the hasher. -/
def LineJoin.hash_code : LineJoin → ℕ
  | .miter => 0
  | .round => 1
  | .bevel => 2

/-- The bit-level view of `Stroke` used by its `Hash` implementation: the two
float fields as bit patterns plus the cap and join styles. -/
structure StrokeBits where
  width : F32Bits
  miter : F32Bits
  cap : LineCap
  join : LineJoin

/-- `impl Hash for Stroke` (stroke.rs lines 72-79), modelled as the sequence
of words the implementation writes into the `Hasher` state:
`width.to_bits()`, `miter.to_bits()`, then the discriminants of `cap` and
`join`. -/
def StrokeBits.hash_stream (s : StrokeBits) : List ℕ :=
  [s.width.to_bits, s.miter.to_bits, s.cap.hash_code, s.join.hash_code]

end

section Lemmas

open Ori

@[simp] theorem Vector.add_x (a b : Vector) : (a + b).x = a.x + b.x := rfl
@[simp] theorem Vector.add_y (a b : Vector) : (a + b).y = a.y + b.y := rfl
@[simp] theorem Vector.neg_x (a : Vector) : (-a).x = -a.x := rfl
@[simp] theorem Vector.neg_y (a : Vector) : (-a).y = -a.y := rfl
@[simp] theorem Vector.smul_x (a : Vector) (s : ℝ) : (a * s).x = a.x * s := rfl
@[simp] theorem Vector.smul_y (a : Vector) (s : ℝ) : (a * s).y = a.y * s := rfl
@[simp] theorem Vector.sdiv_x (a : Vector) (s : ℝ) : (a / s).x = a.x / s := rfl
@[simp] theorem Vector.sdiv_y (a : Vector) (s : ℝ) : (a / s).y = a.y / s := rfl
@[simp] theorem Point.addv_x (p : Point) (v : Vector) : (p + v).x = p.x + v.x := rfl
@[simp] theorem Point.addv_y (p : Point) (v : Vector) : (p + v).y = p.y + v.y := rfl
@[simp] theorem Point.subv_x (p : Point) (v : Vector) : (p - v).x = p.x - v.x := rfl
@[simp] theorem Point.subv_y (p : Point) (v : Vector) : (p - v).y = p.y - v.y := rfl
@[simp] theorem Point.subp_x (p q : Point) : (p - q : Vector).x = p.x - q.x := rfl
@[simp] theorem Point.subp_y (p q : Point) : (p - q : Vector).y = p.y - q.y := rfl
@[simp] theorem Vector.hat_x (a : Vector) : a.hat.x = -a.y := rfl
@[simp] theorem Vector.hat_y (a : Vector) : a.hat.y = a.x := rfl

theorem Vector.eq_iff_comps {a b : Vector} : a = b ↔ a.x = b.x ∧ a.y = b.y := by
  cases a; cases b; simp

theorem Point.eq_iff_coords {a b : Point} : a = b ↔ a.x = b.x ∧ a.y = b.y := by
  cases a; cases b; simp

@[simp] theorem Curve.segments_line_to (c : Curve) (p : Point) :
    (c.line_to p).segments = c.segments ++ [.line p] := rfl

@[simp] theorem Curve.segments_quad_to (c : Curve) (p1 p2 : Point) :
    (c.quad_to p1 p2).segments = c.segments ++ [.quad p1 p2] := rfl

@[simp] theorem Curve.segments_cubic_to (c : Curve) (p1 p2 p3 : Point) :
    (c.cubic_to p1 p2 p3).segments = c.segments ++ [.cubic p1 p2 p3] := rfl

/-- Evaluate `Real.sqrt` at a perfect square. -/
theorem sqrt_eval {a b : ℝ} (hb : 0 ≤ b) (h : b ^ 2 = a) : Real.sqrt a = b := by
  subst h; exact Real.sqrt_sq hb

theorem LineCap.cap_hash_code_inj (a b : LineCap) : a.hash_code = b.hash_code ↔ a = b := by
  cases a <;> cases b <;> simp [LineCap.hash_code]

theorem LineJoin.join_hash_code_inj (a b : LineJoin) : a.hash_code = b.hash_code ↔ a = b := by
  cases a <;> cases b <;> simp [LineJoin.hash_code]

theorem Vector.length_nonneg (v : Vector) : 0 ≤ v.length := Real.sqrt_nonneg _

theorem Vector.sq_length (v : Vector) : v.length ^ 2 = v.x ^ 2 + v.y ^ 2 :=
  Real.sq_sqrt (by positivity)

theorem Vector.length_pos {v : Vector} (h : ¬(v.x = 0 ∧ v.y = 0)) : 0 < v.length := by
  unfold Vector.length
  apply Real.sqrt_pos.mpr
  rcases not_and_or.mp h with hx | hy
  · nlinarith [mul_self_pos.mpr hx, sq_nonneg v.y]
  · nlinarith [mul_self_pos.mpr hy, sq_nonneg v.x]

/-- The scalar core of the round-join correctness: with unit `(ux,uy)` and
`(mx,my)`, nonzero weight `w` whose squared value encodes the half-angle
cosine (`ux*mx + uy*my = 2w² - 1`), the weighted combination traced by the
conic has squared distance `(r D)²` from the pivot, where `D` is the conic
denominator. -/
theorem conic_quadrance (ux uy mx my w t r : ℝ) (hu : ux ^ 2 + uy ^ 2 = 1)
    (hm : mx ^ 2 + my ^ 2 = 1) (hw : w ≠ 0)
    (hd : ux * mx + uy * my = 2 * w ^ 2 - 1) :
    (r * (((1 - t) ^ 2 + t * (1 - t) / w) * ux + (t ^ 2 + t * (1 - t) / w) * mx)) ^ 2 +
      (r * (((1 - t) ^ 2 + t * (1 - t) / w) * uy + (t ^ 2 + t * (1 - t) / w) * my)) ^ 2 =
      (r * ((1 - t) ^ 2 + 2 * t * (1 - t) * w + t ^ 2)) ^ 2 := by
  have hAB : (((1 - t) ^ 2 + t * (1 - t) / w) ^ 2 + (t ^ 2 + t * (1 - t) / w) ^ 2 +
      2 * ((1 - t) ^ 2 + t * (1 - t) / w) * (t ^ 2 + t * (1 - t) / w) * (2 * w ^ 2 - 1)) =
      ((1 - t) ^ 2 + 2 * t * (1 - t) * w + t ^ 2) ^ 2 := by
    field_simp
    ring
  linear_combination (r ^ 2 * ((1 - t) ^ 2 + t * (1 - t) / w) ^ 2) * hu +
    (r ^ 2 * (t ^ 2 + t * (1 - t) / w) ^ 2) * hm +
    (2 * r ^ 2 * ((1 - t) ^ 2 + t * (1 - t) / w) * (t ^ 2 + t * (1 - t) / w)) * hd +
    r ^ 2 * hAB

/-- Every point of the conic arc from `pivot + u*r` to `pivot + m*r` with
control `pivot + (u+m) * (r / 2w²)` and weight `w` (the canonical exact-arc
construction, `0 < w`, `w² = (1 + u·m)/2`, `u`, `m` unit) lies at distance
`|r|` from the pivot. -/
theorem conic_arc_dist (pivot : Point) (u m : Vector) (r w t : ℝ)
    (hu : u.x ^ 2 + u.y ^ 2 = 1) (hm : m.x ^ 2 + m.y ^ 2 = 1) (hw : 0 < w)
    (hw2 : w ^ 2 = (1 + (u.x * m.x + u.y * m.y)) / 2)
    (ht0 : 0 ≤ t) (ht1 : t ≤ 1) :
    ((conic_point (pivot + u * r) (pivot + (u + m) * (r / (2 * w ^ 2)))
        (pivot + m * r) w t - pivot : Vector)).length = |r| := by
  have hDpos : 0 < (1 - t) ^ 2 + 2 * t * (1 - t) * w + t ^ 2 := by
    nlinarith [sq_nonneg (1 - 2 * t),
      mul_nonneg (mul_nonneg ht0 (by linarith : (0 : ℝ) ≤ 1 - t)) hw.le]
  have hwne : w ≠ 0 := ne_of_gt hw
  have hDne : ((1 - t) ^ 2 + 2 * t * (1 - t) * w + t ^ 2) ≠ 0 := ne_of_gt hDpos
  have hd : u.x * m.x + u.y * m.y = 2 * w ^ 2 - 1 := by rw [hw2]; ring
  have hx : (conic_point (pivot + u * r) (pivot + (u + m) * (r / (2 * w ^ 2)))
      (pivot + m * r) w t - pivot : Vector).x =
      r * (((1 - t) ^ 2 + t * (1 - t) / w) * u.x + (t ^ 2 + t * (1 - t) / w) * m.x) /
        ((1 - t) ^ 2 + 2 * t * (1 - t) * w + t ^ 2) := by
    simp only [conic_point, Point.subp_x, Point.addv_x, Vector.smul_x, Vector.add_x]
    field_simp
    ring
  have hy : (conic_point (pivot + u * r) (pivot + (u + m) * (r / (2 * w ^ 2)))
      (pivot + m * r) w t - pivot : Vector).y =
      r * (((1 - t) ^ 2 + t * (1 - t) / w) * u.y + (t ^ 2 + t * (1 - t) / w) * m.y) /
        ((1 - t) ^ 2 + 2 * t * (1 - t) * w + t ^ 2) := by
    simp only [conic_point, Point.subp_y, Point.addv_y, Vector.smul_y, Vector.add_y]
    field_simp
    ring
  unfold Vector.length
  rw [hx, hy, div_pow, div_pow, div_add_div_same,
    conic_quadrance u.x u.y m.x m.y w t r hu hm hwne hd, mul_pow, mul_div_assoc,
    div_self (pow_ne_zero 2 hDne), mul_one]
  exact Real.sqrt_sq_eq_abs r

/-- The normal of the horizontal line from the origin to `(10,0)`. -/
theorem line_normal_horizontal : line_normal ⟨0, 0⟩ ⟨10, 0⟩ = ⟨0, 1⟩ := by
  have hlen : (((⟨10, 0⟩ : Point) - (⟨0, 0⟩ : Point) : Vector).hat).length = 10 := by
    unfold Vector.length
    rw [show (((⟨10, 0⟩ : Point) - (⟨0, 0⟩ : Point) : Vector).hat).x = 0 from by
        norm_num [Vector.hat],
      show (((⟨10, 0⟩ : Point) - (⟨0, 0⟩ : Point) : Vector).hat).y = 10 from by
        norm_num [Vector.hat]]
    exact sqrt_eval (by norm_num) (by norm_num)
  unfold line_normal Vector.normalize
  rw [Vector.eq_iff_comps, Vector.sdiv_x, Vector.sdiv_y, hlen]
  constructor <;> norm_num [Vector.hat]

/-- A zero-length line has the zero vector as its computed normal: the code
normalizes the zero vector (in IEEE arithmetic this is `0/0 = NaN`; in the
real-valued model division by the zero length gives `0`). -/
theorem line_normal_zero (p : Point) : line_normal p p = ⟨0, 0⟩ := by
  unfold line_normal Vector.normalize
  rw [Vector.eq_iff_comps, Vector.sdiv_x, Vector.sdiv_y]
  constructor <;> norm_num [Vector.hat]

theorem quad_offset_error_nonneg (p0 p1 p2 : Point) (off : ℝ) :
    0 ≤ quad_offset_error p0 p1 p2 off := by
  unfold quad_offset_error Vector.length
  exact Real.sqrt_nonneg _

theorem cubic_offset_error_nonneg (p0 p1 p2 p3 : Point) (off : ℝ) :
    0 ≤ cubic_offset_error p0 p1 p2 p3 off := by
  unfold cubic_offset_error Vector.length
  exact Real.sqrt_nonneg _

/-- Emitted-segment upper bound for the quadratic offsetter: starting at
depth `d` with `MAX_DEPTH - d = n`, at most `2 ^ n` segments are appended. -/
theorem offset_quad_len_le (n : ℕ) : ∀ (d : ℕ), MAX_DEPTH - d = n →
    ∀ (c : Curve) (p0 p1 p2 : Point) (off : ℝ),
      (c.offset_quad_bezier p0 p1 p2 off d).segments.length ≤
        c.segments.length + 2 ^ n := by
  induction n with
  | zero =>
    intro d hd c p0 p1 p2 off
    have hd6 : d ≥ MAX_DEPTH := by simp only [MAX_DEPTH] at hd ⊢; omega
    rw [Curve.offset_quad_bezier, dif_pos (Or.inr hd6)]
    simp
  | succ n ih =>
    intro d hd c p0 p1 p2 off
    rw [Curve.offset_quad_bezier]
    split
    · have h1 : 1 ≤ 2 ^ (n + 1) := Nat.one_le_two_pow
      simp only [Curve.segments_quad_to, List.length_append, List.length_cons,
        List.length_nil]
      omega
    · have hd' : MAX_DEPTH - (d + 1) = n := by simp only [MAX_DEPTH] at hd ⊢; omega
      have h1 := ih (d + 1) hd' c p0 (divide_quad_bezier p0 p1 p2 0.5).1
        (divide_quad_bezier p0 p1 p2 0.5).2.1 off
      have h2 := ih (d + 1) hd'
        (Curve.offset_quad_bezier c p0 (divide_quad_bezier p0 p1 p2 0.5).1
          (divide_quad_bezier p0 p1 p2 0.5).2.1 off (d + 1))
        (divide_quad_bezier p0 p1 p2 0.5).2.1 (divide_quad_bezier p0 p1 p2 0.5).2.2
        p2 off
      have hp : 2 ^ (n + 1) = 2 ^ n + 2 ^ n := by ring
      omega

/-- Every call of the quadratic offsetter appends at least one segment. -/
theorem offset_quad_len_ge (n : ℕ) : ∀ (d : ℕ), MAX_DEPTH - d = n →
    ∀ (c : Curve) (p0 p1 p2 : Point) (off : ℝ),
      c.segments.length + 1 ≤ (c.offset_quad_bezier p0 p1 p2 off d).segments.length := by
  induction n with
  | zero =>
    intro d hd c p0 p1 p2 off
    have hd6 : d ≥ MAX_DEPTH := by simp only [MAX_DEPTH] at hd ⊢; omega
    rw [Curve.offset_quad_bezier, dif_pos (Or.inr hd6)]
    simp
  | succ n ih =>
    intro d hd c p0 p1 p2 off
    rw [Curve.offset_quad_bezier]
    split
    · simp
    · have hd' : MAX_DEPTH - (d + 1) = n := by simp only [MAX_DEPTH] at hd ⊢; omega
      have h1 := ih (d + 1) hd' c p0 (divide_quad_bezier p0 p1 p2 0.5).1
        (divide_quad_bezier p0 p1 p2 0.5).2.1 off
      have h2 := ih (d + 1) hd'
        (Curve.offset_quad_bezier c p0 (divide_quad_bezier p0 p1 p2 0.5).1
          (divide_quad_bezier p0 p1 p2 0.5).2.1 off (d + 1))
        (divide_quad_bezier p0 p1 p2 0.5).2.1 (divide_quad_bezier p0 p1 p2 0.5).2.2
        p2 off
      omega

/-- Emitted-segment upper bound for the cubic offsetter. -/
theorem offset_cubic_len_le (n : ℕ) : ∀ (d : ℕ), MAX_DEPTH - d = n →
    ∀ (c : Curve) (p0 p1 p2 p3 : Point) (off : ℝ),
      (c.offset_cubic_bezier p0 p1 p2 p3 off d).segments.length ≤
        c.segments.length + 2 ^ n := by
  induction n with
  | zero =>
    intro d hd c p0 p1 p2 p3 off
    have hd6 : d ≥ MAX_DEPTH := by simp only [MAX_DEPTH] at hd ⊢; omega
    rw [Curve.offset_cubic_bezier, dif_pos (Or.inr hd6)]
    simp
  | succ n ih =>
    intro d hd c p0 p1 p2 p3 off
    rw [Curve.offset_cubic_bezier]
    split
    · have h1 : 1 ≤ 2 ^ (n + 1) := Nat.one_le_two_pow
      simp only [Curve.segments_cubic_to, List.length_append, List.length_cons,
        List.length_nil]
      omega
    · have hd' : MAX_DEPTH - (d + 1) = n := by simp only [MAX_DEPTH] at hd ⊢; omega
      have h1 := ih (d + 1) hd' c p0 (divide_cubic_bezier p0 p1 p2 p3 (1 / 3)).1
        (divide_cubic_bezier p0 p1 p2 p3 (1 / 3)).2.1
        (divide_cubic_bezier p0 p1 p2 p3 (1 / 3)).2.2.1 off
      have h2 := ih (d + 1) hd'
        (Curve.offset_cubic_bezier c p0 (divide_cubic_bezier p0 p1 p2 p3 (1 / 3)).1
          (divide_cubic_bezier p0 p1 p2 p3 (1 / 3)).2.1
          (divide_cubic_bezier p0 p1 p2 p3 (1 / 3)).2.2.1 off (d + 1))
        (divide_cubic_bezier p0 p1 p2 p3 (1 / 3)).2.2.1
        (divide_cubic_bezier p0 p1 p2 p3 (1 / 3)).2.2.2.1
        (divide_cubic_bezier p0 p1 p2 p3 (1 / 3)).2.2.2.2 p3 off
      have hp : 2 ^ (n + 1) = 2 ^ n + 2 ^ n := by ring
      omega

/-- Every call of the cubic offsetter appends at least one segment. -/
theorem offset_cubic_len_ge (n : ℕ) : ∀ (d : ℕ), MAX_DEPTH - d = n →
    ∀ (c : Curve) (p0 p1 p2 p3 : Point) (off : ℝ),
      c.segments.length + 1 ≤
        (c.offset_cubic_bezier p0 p1 p2 p3 off d).segments.length := by
  induction n with
  | zero =>
    intro d hd c p0 p1 p2 p3 off
    have hd6 : d ≥ MAX_DEPTH := by simp only [MAX_DEPTH] at hd ⊢; omega
    rw [Curve.offset_cubic_bezier, dif_pos (Or.inr hd6)]
    simp
  | succ n ih =>
    intro d hd c p0 p1 p2 p3 off
    rw [Curve.offset_cubic_bezier]
    split
    · simp
    · have hd' : MAX_DEPTH - (d + 1) = n := by simp only [MAX_DEPTH] at hd ⊢; omega
      have h1 := ih (d + 1) hd' c p0 (divide_cubic_bezier p0 p1 p2 p3 (1 / 3)).1
        (divide_cubic_bezier p0 p1 p2 p3 (1 / 3)).2.1
        (divide_cubic_bezier p0 p1 p2 p3 (1 / 3)).2.2.1 off
      have h2 := ih (d + 1) hd'
        (Curve.offset_cubic_bezier c p0 (divide_cubic_bezier p0 p1 p2 p3 (1 / 3)).1
          (divide_cubic_bezier p0 p1 p2 p3 (1 / 3)).2.1
          (divide_cubic_bezier p0 p1 p2 p3 (1 / 3)).2.2.1 off (d + 1))
        (divide_cubic_bezier p0 p1 p2 p3 (1 / 3)).2.2.1
        (divide_cubic_bezier p0 p1 p2 p3 (1 / 3)).2.2.2.1
        (divide_cubic_bezier p0 p1 p2 p3 (1 / 3)).2.2.2.2 p3 off
      omega

/-- Exact leaf count for the cubic offsetter with a negative offset: the
acceptance test `error < offset * MAX_ERROR` can never hold, so recursion
always reaches full depth, emitting exactly `2 ^ (MAX_DEPTH - d)` cubics. -/
theorem offset_cubic_len_neg (off : ℝ) (hoff : off < 0) (n : ℕ) :
    ∀ (d : ℕ), MAX_DEPTH - d = n →
    ∀ (c : Curve) (p0 p1 p2 p3 : Point),
      (c.offset_cubic_bezier p0 p1 p2 p3 off d).segments.length =
        c.segments.length + 2 ^ n := by
  induction n with
  | zero =>
    intro d hd c p0 p1 p2 p3
    have hd6 : d ≥ MAX_DEPTH := by simp only [MAX_DEPTH] at hd ⊢; omega
    rw [Curve.offset_cubic_bezier, dif_pos (Or.inr hd6)]
    simp
  | succ n ih =>
    intro d hd c p0 p1 p2 p3
    have hdlt : ¬ d ≥ MAX_DEPTH := by simp only [MAX_DEPTH] at hd ⊢; omega
    have herr : ¬ cubic_offset_error p0 p1 p2 p3 off < off * MAX_ERROR := by
      have h0 := cubic_offset_error_nonneg p0 p1 p2 p3 off
      simp only [MAX_ERROR]
      push_neg
      nlinarith
    rw [Curve.offset_cubic_bezier, dif_neg (not_or.mpr ⟨herr, hdlt⟩)]
    have hd' : MAX_DEPTH - (d + 1) = n := by simp only [MAX_DEPTH] at hd ⊢; omega
    rw [ih (d + 1) hd', ih (d + 1) hd']
    have hp : 2 ^ (n + 1) = 2 ^ n + 2 ^ n := by ring
    omega

end Lemmas

section Claims

open Ori

/-- **C2.** For every pivot, incoming and outgoing normals `n0`, `n1`, signed
half-width `r` and miter limit: whenever the computed miter ratio
`1/amount` (with `amount = dot(normalize(n0+n1), n1)`) is at least the miter
limit, the Miter join appends exactly the same segments as the Bevel join for
the same pivot, normals and `r`. -/
theorem miter_at_limit_equals_bevel (c : Curve) (pivot : Point) (n0 n1 : Vector)
    (r limit : ℝ) (h : 1 / miter_amount n0 n1 ≥ limit) :
    c.stroke_join pivot n0 n1 r .miter limit = c.stroke_join pivot n0 n1 r .bevel limit := by
  unfold Curve.stroke_join
  by_cases hc : n0.cross n1 * r > 0
  · rw [if_pos hc, if_pos hc]
  · rw [if_neg hc, if_neg hc]
    show c.stroke_miter pivot n0 n1 r limit = c.stroke_bevel pivot n1 r
    unfold Curve.stroke_miter
    rw [if_pos h]

/-- Witness for C2 at a concrete input: `n0 = n1 = (0,1)`, `limit = 1`, where
the miter ratio is exactly `1`. -/
theorem miter_at_limit_equals_bevel_witness :
    1 / miter_amount ⟨0, 1⟩ ⟨0, 1⟩ ≥ (1 : ℝ) ∧
      Curve.stroke_join Curve.new ⟨0, 0⟩ ⟨0, 1⟩ ⟨0, 1⟩ 1 .miter 1 =
        Curve.stroke_join Curve.new ⟨0, 0⟩ ⟨0, 1⟩ ⟨0, 1⟩ 1 .bevel 1 := by
  have h4 : Real.sqrt 4 = 2 := sqrt_eval (by norm_num) (by norm_num)
  have h : 1 / miter_amount ⟨0, 1⟩ ⟨0, 1⟩ ≥ (1 : ℝ) := by
    norm_num [miter_amount, Vector.normalize, Vector.length, Vector.dot, h4]
  exact ⟨h, miter_at_limit_equals_bevel Curve.new ⟨0, 0⟩ ⟨0, 1⟩ ⟨0, 1⟩ 1 1 h⟩

/-- **C5.** For every join style, pivot, normals and signed half-width `r`:
when `cross(n0, n1) * r > 0` (the concave side for this offset sign), the
join emits exactly one straight line segment ending at `pivot + n1*r`, and
nothing else, regardless of the join style or miter limit. -/
theorem concave_join_single_line (c : Curve) (pivot : Point) (n0 n1 : Vector)
    (r : ℝ) (join : LineJoin) (limit : ℝ) (h : n0.cross n1 * r > 0) :
    c.stroke_join pivot n0 n1 r join limit = c.line_to (pivot + n1 * r) := by
  unfold Curve.stroke_join
  rw [if_pos h]

/-- Witness for C5 at a concrete input: `n0 = (0,1)`, `n1 = (1,0)`,
`r = -1`, where `cross(n0,n1) * r = 1 > 0`. -/
theorem concave_join_single_line_witness :
    Vector.cross ⟨0, 1⟩ ⟨1, 0⟩ * (-1 : ℝ) > 0 ∧
      Curve.stroke_join Curve.new ⟨0, 0⟩ ⟨0, 1⟩ ⟨1, 0⟩ (-1) .round 4 =
        Curve.line_to Curve.new ((⟨0, 0⟩ : Point) + (⟨1, 0⟩ : Vector) * (-1 : ℝ)) := by
  have h : Vector.cross ⟨0, 1⟩ ⟨1, 0⟩ * (-1 : ℝ) > 0 := by
    norm_num [Vector.cross]
  exact ⟨h, concave_join_single_line Curve.new ⟨0, 0⟩ ⟨0, 1⟩ ⟨1, 0⟩ (-1) .round 4 h⟩

/-- **C3.** For every quadratic or cubic source segment and every offset, the
recursive offset approximator accepts and emits the candidate segment exactly
when the distance between the candidate's reference point and the true offset
point is below the threshold (`MAX_ERROR` for quadratics, `offset *
MAX_ERROR` for cubics) or the depth reached `MAX_DEPTH`; otherwise it splits
the original curve at the reference parameter (`t = 0.5` resp. `t = 1/3`) and
recurses on both halves at `depth + 1`.  The recursion terminates (it is a
well-founded Lean definition) and appends at most `2 ^ MAX_DEPTH = 64` leaf
segments per source curve. -/
theorem offset_subdivision_characterization_and_bound
    (c : Curve) (p0 p1 p2 p3 : Point) (off : ℝ) (depth : ℕ) :
    (c.offset_quad_bezier p0 p1 p2 off depth =
        c.quad_to (quad_offset_points p0 p1 p2 off).2.1
          (quad_offset_points p0 p1 p2 off).2.2 ↔
      quad_offset_error p0 p1 p2 off < MAX_ERROR ∨ depth ≥ MAX_DEPTH) ∧
    (¬(quad_offset_error p0 p1 p2 off < MAX_ERROR ∨ depth ≥ MAX_DEPTH) →
      c.offset_quad_bezier p0 p1 p2 off depth =
        Curve.offset_quad_bezier
          (Curve.offset_quad_bezier c p0 (divide_quad_bezier p0 p1 p2 0.5).1
            (divide_quad_bezier p0 p1 p2 0.5).2.1 off (depth + 1))
          (divide_quad_bezier p0 p1 p2 0.5).2.1 (divide_quad_bezier p0 p1 p2 0.5).2.2
          p2 off (depth + 1)) ∧
    (c.offset_cubic_bezier p0 p1 p2 p3 off depth =
        c.cubic_to (cubic_offset_points p0 p1 p2 p3 off).2.1
          (cubic_offset_points p0 p1 p2 p3 off).2.2.1
          (cubic_offset_points p0 p1 p2 p3 off).2.2.2 ↔
      cubic_offset_error p0 p1 p2 p3 off < off * MAX_ERROR ∨ depth ≥ MAX_DEPTH) ∧
    (¬(cubic_offset_error p0 p1 p2 p3 off < off * MAX_ERROR ∨ depth ≥ MAX_DEPTH) →
      c.offset_cubic_bezier p0 p1 p2 p3 off depth =
        Curve.offset_cubic_bezier
          (Curve.offset_cubic_bezier c p0 (divide_cubic_bezier p0 p1 p2 p3 (1 / 3)).1
            (divide_cubic_bezier p0 p1 p2 p3 (1 / 3)).2.1
            (divide_cubic_bezier p0 p1 p2 p3 (1 / 3)).2.2.1 off (depth + 1))
          (divide_cubic_bezier p0 p1 p2 p3 (1 / 3)).2.2.1
          (divide_cubic_bezier p0 p1 p2 p3 (1 / 3)).2.2.2.1
          (divide_cubic_bezier p0 p1 p2 p3 (1 / 3)).2.2.2.2 p3 off (depth + 1)) ∧
    (c.offset_quad_bezier p0 p1 p2 off 0).segments.length ≤
      c.segments.length + 2 ^ MAX_DEPTH ∧
    (c.offset_cubic_bezier p0 p1 p2 p3 off 0).segments.length ≤
      c.segments.length + 2 ^ MAX_DEPTH := by
  refine ⟨⟨?_, ?_⟩, ?_, ⟨?_, ?_⟩, ?_, ?_, ?_⟩
  · intro heq
    by_contra hcond
    rw [Curve.offset_quad_bezier, dif_neg hcond] at heq
    have hinner := offset_quad_len_ge (MAX_DEPTH - (depth + 1)) (depth + 1) rfl
      c p0 (divide_quad_bezier p0 p1 p2 0.5).1
      (divide_quad_bezier p0 p1 p2 0.5).2.1 off
    have houter := offset_quad_len_ge (MAX_DEPTH - (depth + 1)) (depth + 1) rfl
      (Curve.offset_quad_bezier c p0 (divide_quad_bezier p0 p1 p2 0.5).1
        (divide_quad_bezier p0 p1 p2 0.5).2.1 off (depth + 1))
      (divide_quad_bezier p0 p1 p2 0.5).2.1 (divide_quad_bezier p0 p1 p2 0.5).2.2
      p2 off
    have hlen := congrArg (fun cu => cu.segments.length) heq
    simp only [Curve.segments_quad_to, List.length_append, List.length_cons,
      List.length_nil] at hlen
    omega
  · intro hcond
    rw [Curve.offset_quad_bezier, dif_pos hcond]
  · intro hcond
    rw [Curve.offset_quad_bezier, dif_neg hcond]
  · intro heq
    by_contra hcond
    rw [Curve.offset_cubic_bezier, dif_neg hcond] at heq
    have hinner := offset_cubic_len_ge (MAX_DEPTH - (depth + 1)) (depth + 1) rfl
      c p0 (divide_cubic_bezier p0 p1 p2 p3 (1 / 3)).1
      (divide_cubic_bezier p0 p1 p2 p3 (1 / 3)).2.1
      (divide_cubic_bezier p0 p1 p2 p3 (1 / 3)).2.2.1 off
    have houter := offset_cubic_len_ge (MAX_DEPTH - (depth + 1)) (depth + 1) rfl
      (Curve.offset_cubic_bezier c p0 (divide_cubic_bezier p0 p1 p2 p3 (1 / 3)).1
        (divide_cubic_bezier p0 p1 p2 p3 (1 / 3)).2.1
        (divide_cubic_bezier p0 p1 p2 p3 (1 / 3)).2.2.1 off (depth + 1))
      (divide_cubic_bezier p0 p1 p2 p3 (1 / 3)).2.2.1
      (divide_cubic_bezier p0 p1 p2 p3 (1 / 3)).2.2.2.1
      (divide_cubic_bezier p0 p1 p2 p3 (1 / 3)).2.2.2.2 p3 off
    have hlen := congrArg (fun cu => cu.segments.length) heq
    simp only [Curve.segments_cubic_to, List.length_append, List.length_cons,
      List.length_nil] at hlen
    omega
  · intro hcond
    rw [Curve.offset_cubic_bezier, dif_pos hcond]
  · intro hcond
    rw [Curve.offset_cubic_bezier, dif_neg hcond]
  · exact offset_quad_len_le MAX_DEPTH 0 rfl c p0 p1 p2 off
  · exact offset_cubic_len_le MAX_DEPTH 0 rfl c p0 p1 p2 p3 off

/-- **C10.** For a strictly negative offset (as used for the outside
accumulator, offset by `-width/2`), the cubic early-acceptance test
`error < offset * MAX_ERROR` can never succeed (the error is a nonnegative
distance, the threshold negative), so the cubic offsetter always recurses to
full depth and emits exactly `2 ^ MAX_DEPTH = 64` cubic segments per source
cubic. -/
theorem negative_offset_cubic_full_depth (c : Curve) (p0 p1 p2 p3 : Point)
    (off : ℝ) (hoff : off < 0) :
    ¬(cubic_offset_error p0 p1 p2 p3 off < off * MAX_ERROR) ∧
      (c.offset_cubic_bezier p0 p1 p2 p3 off 0).segments.length =
        c.segments.length + 2 ^ MAX_DEPTH := by
  constructor
  · have h0 := cubic_offset_error_nonneg p0 p1 p2 p3 off
    simp only [MAX_ERROR]
    intro hlt
    nlinarith
  · exact offset_cubic_len_neg off hoff MAX_DEPTH 0 rfl c p0 p1 p2 p3

/-- Witness for C10 at a concrete input: offset `-1` on a concrete cubic,
starting from the empty curve, yields exactly `64` segments. -/
theorem negative_offset_cubic_full_depth_witness :
    (-1 : ℝ) < 0 ∧
      (Curve.new.offset_cubic_bezier ⟨0, 0⟩ ⟨1, 0⟩ ⟨2, 0⟩ ⟨3, 0⟩ (-1) 0).segments.length =
        Curve.new.segments.length + 2 ^ MAX_DEPTH :=
  ⟨by norm_num,
    (negative_offset_cubic_full_depth Curve.new ⟨0, 0⟩ ⟨1, 0⟩ ⟨2, 0⟩ ⟨3, 0⟩ (-1)
      (by norm_num)).2⟩

/-- **C4 (corrected).** For every pivot, unit normals `n0`, `n1` with
`n0 + n1 ≠ 0`, and signed half-width `r`: the Round join emits exactly two
conic segments (weight `cos(θ/2)`, control points
`pivot + normalize(n_side + nmid) * r / cos(θ/2)`), and every point of the
two conic arcs — the first starting at the context's current point
`pivot + n0*r`, the second at `mid` — lies at Euclidean distance exactly
`|r|` from the pivot: an exact circular-arc construction.  The
non-antipodality hypothesis is necessary: at `n1 = -n0` (reachable, since
`cross(n0,n1) = 0` does not trigger the concave pre-test) the bisector
`nmid = normalize(0)` degenerates and emitted arc points reach the pivot
itself — see the antipodal counterexample. -/
theorem round_join_on_circle (c : Curve) (pivot : Point) (n0 n1 : Vector)
    (r t : ℝ) (h0 : n0.length = 1) (h1 : n1.length = 1)
    (hnz : n0 + n1 ≠ (⟨0, 0⟩ : Vector)) (ht0 : 0 ≤ t) (ht1 : t ≤ 1) :
    c.stroke_round pivot n0 n1 r =
      (c.conic_to (round_c0 pivot n0 n1 r) (round_mid pivot n0 n1 r)
        (round_w n0 n1)).conic_to (round_c1 pivot n0 n1 r) (pivot + n1 * r)
        (round_w n0 n1) ∧
    ((conic_point (pivot + n0 * r) (round_c0 pivot n0 n1 r)
        (round_mid pivot n0 n1 r) (round_w n0 n1) t - pivot : Vector)).length = |r| ∧
    ((conic_point (round_mid pivot n0 n1 r) (round_c1 pivot n0 n1 r)
        (pivot + n1 * r) (round_w n0 n1) t - pivot : Vector)).length = |r| := by
  have hu0 : n0.x ^ 2 + n0.y ^ 2 = 1 := by
    have h := Vector.sq_length n0
    rw [h0] at h
    simpa using h.symm
  have hu1 : n1.x ^ 2 + n1.y ^ 2 = 1 := by
    have h := Vector.sq_length n1
    rw [h1] at h
    simpa using h.symm
  have hsnz : ¬((n0 + n1).x = 0 ∧ (n0 + n1).y = 0) := by
    intro hc
    exact hnz (Vector.eq_iff_comps.mpr (by simpa using hc))
  have hs : 0 < (n0 + n1).length := Vector.length_pos hsnz
  have hsne : (n0 + n1).length ≠ 0 := ne_of_gt hs
  have hssq : (n0 + n1).length ^ 2 = 2 + 2 * (n0.x * n1.x + n0.y * n1.y) := by
    have h := Vector.sq_length (n0 + n1)
    simp only [Vector.add_x, Vector.add_y] at h
    linear_combination h + hu0 + hu1
  have hmx : (round_nmid n0 n1).x = (n0.x + n1.x) / (n0 + n1).length := by
    simp [round_nmid, Vector.normalize]
  have hmy : (round_nmid n0 n1).y = (n0.y + n1.y) / (n0 + n1).length := by
    simp [round_nmid, Vector.normalize]
  have hsum : (n0.x + n1.x) ^ 2 + (n0.y + n1.y) ^ 2 = (n0 + n1).length ^ 2 := by
    have h := Vector.sq_length (n0 + n1)
    simp only [Vector.add_x, Vector.add_y] at h
    linarith
  have hmsq : (round_nmid n0 n1).x ^ 2 + (round_nmid n0 n1).y ^ 2 = 1 := by
    rw [hmx, hmy, div_pow, div_pow, div_add_div_same, hsum]
    exact div_self (pow_ne_zero 2 hsne)
  have hδ0 : n0.x * (round_nmid n0 n1).x + n0.y * (round_nmid n0 n1).y =
      (n0 + n1).length / 2 := by
    rw [hmx, hmy, ← mul_div_assoc, ← mul_div_assoc, div_add_div_same]
    rw [show n0.x * (n0.x + n1.x) + n0.y * (n0.y + n1.y) =
        (n0 + n1).length ^ 2 / 2 from by linear_combination (-1 / 2 : ℝ) * hssq + hu0]
    field_simp
    ring
  have hδ1 : n1.x * (round_nmid n0 n1).x + n1.y * (round_nmid n0 n1).y =
      (n0 + n1).length / 2 := by
    rw [hmx, hmy, ← mul_div_assoc, ← mul_div_assoc, div_add_div_same]
    rw [show n1.x * (n0.x + n1.x) + n1.y * (n0.y + n1.y) =
        (n0 + n1).length ^ 2 / 2 from by linear_combination (-1 / 2 : ℝ) * hssq + hu1]
    field_simp
    ring
  have hdot0 : Vector.dot n0 (round_nmid n0 n1) = (n0 + n1).length / 2 := hδ0
  have hargpos : 0 < (1 + Vector.dot n0 (round_nmid n0 n1)) / 2 := by
    rw [hdot0]
    linarith
  have hwpos : 0 < round_w n0 n1 := by
    unfold round_w
    exact Real.sqrt_pos.mpr hargpos
  have hwsq : (round_w n0 n1) ^ 2 =
      (1 + (n0.x * (round_nmid n0 n1).x + n0.y * (round_nmid n0 n1).y)) / 2 := by
    unfold round_w
    rw [Real.sq_sqrt hargpos.le]
    rfl
  have hwsq1 : (round_w n0 n1) ^ 2 =
      (1 + ((round_nmid n0 n1).x * n1.x + (round_nmid n0 n1).y * n1.y)) / 2 := by
    rw [hwsq, hδ0, show (round_nmid n0 n1).x * n1.x + (round_nmid n0 n1).y * n1.y =
      (n0 + n1).length / 2 from by linear_combination hδ1]
  have hb0 : (n0 + round_nmid n0 n1).length = 2 * round_w n0 n1 := by
    unfold Vector.length
    apply sqrt_eval (by linarith [hwpos] : (0 : ℝ) ≤ 2 * round_w n0 n1)
    simp only [Vector.add_x, Vector.add_y]
    linear_combination 4 * hwsq - hu0 - hmsq
  have hb1 : (n1 + round_nmid n0 n1).length = 2 * round_w n0 n1 := by
    unfold Vector.length
    apply sqrt_eval (by linarith [hwpos] : (0 : ℝ) ≤ 2 * round_w n0 n1)
    simp only [Vector.add_x, Vector.add_y]
    linear_combination 4 * hwsq1 - hu1 - hmsq
  have hwne : round_w n0 n1 ≠ 0 := ne_of_gt hwpos
  have hc0 : round_c0 pivot n0 n1 r =
      pivot + (n0 + round_nmid n0 n1) * (r / (2 * (round_w n0 n1) ^ 2)) := by
    unfold round_c0
    rw [Point.eq_iff_coords]
    constructor
    · simp only [Point.addv_x, Vector.smul_x, Vector.normalize, Vector.sdiv_x, hb0]
      field_simp
      ring
    · simp only [Point.addv_y, Vector.smul_y, Vector.normalize, Vector.sdiv_y, hb0]
      field_simp
      ring
  have hc1 : round_c1 pivot n0 n1 r =
      pivot + (round_nmid n0 n1 + n1) * (r / (2 * (round_w n0 n1) ^ 2)) := by
    unfold round_c1
    rw [Point.eq_iff_coords]
    constructor
    · simp only [Point.addv_x, Vector.smul_x, Vector.normalize, Vector.sdiv_x, hb1,
        Vector.add_x]
      field_simp
      ring
    · simp only [Point.addv_y, Vector.smul_y, Vector.normalize, Vector.sdiv_y, hb1,
        Vector.add_y]
      field_simp
      ring
  refine ⟨rfl, ?_, ?_⟩
  · rw [hc0]
    exact conic_arc_dist pivot n0 (round_nmid n0 n1) r (round_w n0 n1) t hu0 hmsq
      hwpos hwsq ht0 ht1
  · rw [hc1]
    exact conic_arc_dist pivot (round_nmid n0 n1) n1 r (round_w n0 n1) t hmsq hu1
      hwpos hwsq1 ht0 ht1

/-- Witness for C4 at a concrete input: `n0 = (0,1)`, `n1 = (1,0)`, `r = 2`,
`t = 1/2`: the midpoint of the first emitted arc is at distance `2` from the
pivot. -/
theorem round_join_on_circle_witness :
    Vector.length ⟨0, 1⟩ = 1 ∧ Vector.length ⟨1, 0⟩ = 1 ∧
      ((⟨0, 1⟩ : Vector) + ⟨1, 0⟩ ≠ (⟨0, 0⟩ : Vector)) ∧
      ((conic_point ((⟨0, 0⟩ : Point) + (⟨0, 1⟩ : Vector) * (2 : ℝ))
          (round_c0 ⟨0, 0⟩ ⟨0, 1⟩ ⟨1, 0⟩ 2) (round_mid ⟨0, 0⟩ ⟨0, 1⟩ ⟨1, 0⟩ 2)
          (round_w ⟨0, 1⟩ ⟨1, 0⟩) (1 / 2) - (⟨0, 0⟩ : Point) : Vector)).length =
        |(2 : ℝ)| := by
  have h0 : Vector.length (⟨0, 1⟩ : Vector) = 1 := by
    unfold Vector.length
    exact sqrt_eval (by norm_num) (by norm_num)
  have h1 : Vector.length (⟨1, 0⟩ : Vector) = 1 := by
    unfold Vector.length
    exact sqrt_eval (by norm_num) (by norm_num)
  have hnz : (⟨0, 1⟩ : Vector) + ⟨1, 0⟩ ≠ (⟨0, 0⟩ : Vector) := by
    intro hc
    rw [Vector.eq_iff_comps] at hc
    simp at hc
  exact ⟨h0, h1, hnz,
    (round_join_on_circle Curve.new ⟨0, 0⟩ ⟨0, 1⟩ ⟨1, 0⟩ 2 (1 / 2) h0 h1 hnz
      (by norm_num) (by norm_num)).2.1⟩

/-- **C4 counterexample.** The original universal claim is false at the
antipodal case: for the unit normals `n0 = (0,1)`, `n1 = (0,-1)` the Round
join is reached (`cross(n0,n1) * r = 0`, so `stroke_join` dispatches to
`stroke_round`), yet the endpoint (`t = 1`) of the first emitted conic arc
with `r = 1` lies at distance `0` from the pivot, not `|r| = 1`: the
bisector `nmid = normalize(0)` is degenerate (the zero vector here; NaN
under IEEE arithmetic) and `mid` collapses onto the pivot. -/
theorem round_join_antipodal_counterexample :
    Vector.length ⟨0, 1⟩ = 1 ∧ Vector.length ⟨0, -1⟩ = 1 ∧
      Curve.stroke_join Curve.new ⟨0, 0⟩ ⟨0, 1⟩ ⟨0, -1⟩ 1 .round 4 =
        Curve.stroke_round Curve.new ⟨0, 0⟩ ⟨0, 1⟩ ⟨0, -1⟩ 1 ∧
      ((conic_point ((⟨0, 0⟩ : Point) + (⟨0, 1⟩ : Vector) * (1 : ℝ))
          (round_c0 ⟨0, 0⟩ ⟨0, 1⟩ ⟨0, -1⟩ 1) (round_mid ⟨0, 0⟩ ⟨0, 1⟩ ⟨0, -1⟩ 1)
          (round_w ⟨0, 1⟩ ⟨0, -1⟩) 1 - (⟨0, 0⟩ : Point) : Vector)).length = 0 ∧
      (0 : ℝ) ≠ |(1 : ℝ)| := by
  have hmid : round_mid ⟨0, 0⟩ ⟨0, 1⟩ ⟨0, -1⟩ 1 = (⟨0, 0⟩ : Point) := by
    unfold round_mid round_nmid Vector.normalize
    rw [Point.eq_iff_coords]
    constructor <;> norm_num
  refine ⟨?_, ?_, ?_, ?_, by norm_num⟩
  · unfold Vector.length
    exact sqrt_eval (by norm_num) (by norm_num)
  · unfold Vector.length
    exact sqrt_eval (by norm_num) (by norm_num)
  · unfold Curve.stroke_join
    rw [if_neg (by norm_num [Vector.cross])]
  · rw [hmid]
    unfold conic_point Vector.length
    norm_num [Real.sqrt_zero]

/-- **C9.** The hash of a `Stroke` is computed from the bit patterns of its
two float fields together with its cap and join: two strokes feed identical
streams into the hasher if and only if `width.to_bits`, `miter.to_bits`,
`cap` and `join` all coincide (so `-0.0` vs `0.0` and NaN payloads are
distinguished bit-exactly, as a cache key requires). -/
theorem stroke_hash_stream_iff_bits (s1 s2 : StrokeBits) :
    s1.hash_stream = s2.hash_stream ↔
      s1.width.to_bits = s2.width.to_bits ∧ s1.miter.to_bits = s2.miter.to_bits ∧
        s1.cap = s2.cap ∧ s1.join = s2.join := by
  simp [StrokeBits.hash_stream, LineCap.cap_hash_code_inj, LineJoin.join_hash_code_inj]

/-- **C1 (code bug).** Stroking `Move(0,0) → Line(10,0)` with `width = 2`,
`cap = Butt` does *not* produce the axis-aligned 10×2 rectangle with vertices
near `(0,±1)`, `(10,±1)`: the cap block recomputes the segment normal with
the already-updated current point (`segment_normal(Line(10,0), p0 = (10,0))`
normalizes a zero vector, a degenerate normal — `NaN` in IEEE arithmetic),
so the end cap emits the centerline vertex `(10,0)` and the corner `(10,-1)`
is never emitted. -/
theorem line_stroke_butt_cap_degenerate :
    Curve.stroke_impl Curve.new ⟨[.move ⟨0, 0⟩, .line ⟨10, 0⟩]⟩ ⟨2, 4, .butt, .miter⟩ =
      some ⟨[.move ⟨0, 1⟩, .line ⟨10, 1⟩, .line ⟨10, 0⟩, .line ⟨0, -1⟩,
             .line ⟨0, 1⟩, .close]⟩ ∧
    segment_normal (.line ⟨10, 0⟩) ⟨10, 0⟩ 1 = some ⟨0, 0⟩ := by
  constructor
  · norm_num [Curve.stroke_impl, Curve.stroke_loop, cap_block, at_subpath_end,
      segment_normal, Curve.offset_line, Curve.stroke_line_cap, Curve.move_to,
      Curve.line_to, Curve.close, Curve.append_reverse, reverse_segments, Curve.new,
      Point.ZERO, line_normal_horizontal, line_normal_zero, Point.eq_iff_coords,
      Vector.eq_iff_comps]
  · simp [segment_normal, line_normal_zero]

/-- **C6 (code bug).** A subpath consisting of only a `Move` directly
followed by `Close` makes the stroker fail instead of contributing nothing:
the `Close` branch evaluates `n0.unwrap()` — eagerly, as the argument of
`Option::unwrap_or` — with no previous normal present. -/
theorem move_close_subpath_panics (s : Stroke) :
    Curve.stroke_impl Curve.new ⟨[.move ⟨0, 0⟩, .close]⟩ s = none := by
  simp [Curve.stroke_impl, Curve.stroke_loop, cap_block, at_subpath_end,
    segment_normal]

/-- **C7 counterexample.** A path whose drawing segment appears before any
`Move` does *not* fail with a `MalformedPath` condition: stroking
`[Line(10,0)]` succeeds (produces an outline). -/
theorem line_without_move_strokes_counterexample :
    (Curve.stroke_impl Curve.new ⟨[.line ⟨10, 0⟩]⟩ ⟨2, 4, .butt, .miter⟩).isSome =
      true := by
  simp [Curve.stroke_impl, Curve.stroke_loop, cap_block, at_subpath_end,
    segment_normal]

/-- **C7 (corrected).** A drawing segment before any `Move` is processed by
silently defaulting the subpath's start point to the origin: stroking
`[Line p]` produces exactly the outline of `[Move(0,0), Line p]`, and always
succeeds — there is no `MalformedPath` failure path. -/
theorem line_without_move_defaults_origin (p : Point) (s : Stroke) :
    Curve.stroke_impl Curve.new ⟨[.line p]⟩ s =
        Curve.stroke_impl Curve.new ⟨[.move ⟨0, 0⟩, .line p]⟩ s ∧
      (Curve.stroke_impl Curve.new ⟨[.line p]⟩ s).isSome = true := by
  constructor
  · simp [Curve.stroke_impl, Curve.stroke_loop, cap_block, at_subpath_end,
      Point.ZERO]
  · simp [Curve.stroke_impl, Curve.stroke_loop, cap_block, at_subpath_end,
      segment_normal]

/-- **C8 counterexample.** The stroker does not detect zero-length segments:
stroking `Move(0,0) → Line(10,0) → Line(10,0)` (zero-length second line,
`width = 2`, bevel join) computes the degenerate normal
`normalize(0) = (0,0)` for the zero-length line — it is *not* the
carried-forward previous normal `(0,1)` — and that degenerate normal enters
the emitted geometry: the output contains centerline vertices `(10,0)` where
properly offset geometry would lie at distance 1. -/
theorem zero_length_line_counterexample :
    Curve.stroke_impl Curve.new ⟨[.move ⟨0, 0⟩, .line ⟨10, 0⟩, .line ⟨10, 0⟩]⟩
        ⟨2, 4, .butt, .bevel⟩ =
      some ⟨[.move ⟨0, 1⟩, .line ⟨10, 1⟩, .line ⟨10, 0⟩, .line ⟨10, 0⟩,
             .line ⟨10, 0⟩, .line ⟨10, 0⟩, .line ⟨10, -1⟩, .line ⟨0, -1⟩,
             .line ⟨0, 1⟩, .close]⟩ ∧
    line_normal ⟨10, 0⟩ ⟨10, 0⟩ = ⟨0, 0⟩ ∧ (⟨0, 0⟩ : Vector) ≠ ⟨0, 1⟩ := by
  refine ⟨?_, line_normal_zero _, by simp [Vector.eq_iff_comps]⟩
  norm_num [Curve.stroke_impl, Curve.stroke_loop, cap_block, at_subpath_end,
    segment_normal, Curve.offset_line, Curve.stroke_line_cap, Curve.stroke_join,
    Curve.stroke_bevel, Curve.move_to, Curve.line_to, Curve.close,
    Curve.append_reverse, reverse_segments, Curve.new, Point.ZERO,
    line_normal_horizontal, line_normal_zero, Vector.cross, Point.eq_iff_coords,
    Vector.eq_iff_comps]

/-- **C8 (corrected).** There is no zero-length detection and no
carry-forward: the normal computed for a zero-length line is the zero vector
(`normalize` of the zero vector; `NaN` under IEEE division), and the offset
segment emitted with it is the unoffset point itself. -/
theorem zero_length_line_no_detection (c : Curve) (p : Point) (off : ℝ) :
    line_normal p p = ⟨0, 0⟩ ∧ c.offset_line p p off = c.line_to p := by
  refine ⟨line_normal_zero p, ?_⟩
  unfold Curve.offset_line
  rw [line_normal_zero]
  congr 1
  rw [Point.eq_iff_coords]
  constructor <;> simp

end Claims

end Ori
